import Mathlib

/-!
Verification of the zbus_xmlgen trait generator (`zbus_xmlgen/src/gen.rs`).

The development shallowly embeds the two components of `gen.rs`:

* the signature translator `to_rust_type` / `iter_to_rust_type`, a
  recursive-descent decoder over the bytes of a D-Bus type signature,
  embedded here as a fuel-indexed function over `List Char` returning
  `Except DecodeErr (String × List Char)` (the produced Rust type
  expression and the not-yet-consumed characters); the Rust `unwrap` /
  `unimplemented!` / out-of-bounds `vec[0]` panics become the explicit
  error values of `DecodeErr`;

* the interface emitter `GenTrait::fmt` together with its helpers
  `inputs_output_from_args`, `parse_signal_args`, `to_identifier` and
  `pascal_case`, embedded as functions from an interface model to the
  emitted text (an `Option String`; `none` corresponds to a panic).

The external `snakecase` crate's `to_snakecase` is not part of the
repository; it is modelled from the specification's naming-normalization
paragraph and marked as such.
-/

set_option maxHeartbeats 1000000

/-- The ways a single translation call can die: `eof` for an `unwrap` of an
exhausted iterator (also used when the step budget runs out, which never
happens at the budget `to_rust_type_e` supplies), `unknownCode` for the
`unimplemented!()` arm, and `emptyStructIndex` for the out-of-bounds
`vec[0]` on a structure that closed with zero decoded members. -/
inductive DecodeErr where
  | eof : DecodeErr
  | unknownCode : Char → DecodeErr
  | emptyStructIndex : DecodeErr
deriving DecidableEq

/-- `Vec::join(", ")` on the decoded member strings. -/
def joinComma : List String → String
  | [] => ""
  | [x] => x
  | x :: xs => x ++ ", " ++ joinComma xs

mutual
/-- Embedding of `iter_to_rust_type` from `gen.rs`.  `fuel` bounds the
number of decoding steps (the Rust recursion needs none; any
`fuel ≥ 2 * length + 1` is enough, see `decode_wf`).  The source merges the
`'('` and `'{'` arms with a `dict` flag; here they are two arms with the
same member loop (`struct_members`) and the source's two post-processing
branches.  Note the member loop only peeks at the closing delimiter and
never consumes it, exactly as the source's `loop { match it.peek() ... }`
does. -/
def iter_to_rust_type (fuel : Nat) (s : List Char) (input as_ref : Bool) :
    Except DecodeErr (String × List Char) :=
  match fuel with
  | 0 => .error .eof
  | fuel + 1 =>
    match s with
    | [] => .error .eof
    | c :: rest =>
      match c with
      | 'y' => .ok ("u8", rest)
      | 'b' => .ok ("bool", rest)
      | 'n' => .ok ("i16", rest)
      | 'q' => .ok ("u16", rest)
      | 'i' => .ok ("i32", rest)
      | 'u' => .ok ("u32", rest)
      | 'x' => .ok ("i64", rest)
      | 't' => .ok ("u64", rest)
      | 'd' => .ok ("f64", rest)
      | 'h' => .ok (if input then "zbus::zvariant::Fd" else "zbus::zvariant::OwnedFd", rest)
      | 's' => .ok (if input || as_ref then "&str" else "String", rest)
      | 'o' =>
        .ok (if input then
               (if as_ref then "&zbus::zvariant::ObjectPath<\x27_>"
                else "zbus::zvariant::ObjectPath<\x27_>")
             else "zbus::zvariant::OwnedObjectPath", rest)
      | 'g' =>
        .ok (if input then
               (if as_ref then "&zbus::zvariant::Signature<\x27_>"
                else "zbus::zvariant::Signature<\x27_>")
             else "zbus::zvariant::OwnedSignature", rest)
      | 'v' =>
        .ok (if input then
               (if as_ref then "&zbus::zvariant::Value<\x27_>"
                else "zbus::zvariant::Value<\x27_>")
             else "zbus::zvariant::OwnedValue", rest)
      | 'a' =>
        match rest with
        | [] => .error .eof
        | c2 :: _ =>
          if c2 = '{' then
            match iter_to_rust_type fuel rest input false with
            | .error e => .error e
            | .ok (t, r) => .ok ("std::collections::HashMap<" ++ t ++ ">", r)
          else
            match iter_to_rust_type fuel rest input false with
            | .error e => .error e
            | .ok (t, r) =>
              .ok (if input then "&[" ++ t ++ "]"
                   else (if as_ref then "&" else "") ++ "Vec<" ++ t ++ ">", r)
      | '(' =>
        match struct_members fuel rest input with
        | .error e => .error e
        | .ok (vec, r) =>
          if vec.length > 1 then
            .ok ((if as_ref then "&" else "") ++ "(" ++ joinComma vec ++ ")", r)
          else
            match vec with
            | [] => .error .emptyStructIndex
            | t :: _ => .ok (t, r)
      | '{' =>
        match struct_members fuel rest input with
        | .error e => .error e
        | .ok (vec, r) => .ok (joinComma vec, r)
      | c => .error (.unknownCode c)

/-- The source's `loop` inside the `'('`/`'{'` arm: peek, stop on a closing
delimiter (without consuming it), otherwise decode one member with
`as_ref = false` and continue on whatever that decode left over. -/
def struct_members (fuel : Nat) (s : List Char) (input : Bool) :
    Except DecodeErr (List String × List Char) :=
  match fuel with
  | 0 => .error .eof
  | fuel + 1 =>
    match s with
    | [] => .error .eof
    | c :: _ =>
      if c = ')' ∨ c = '}' then .ok ([], s)
      else
        match iter_to_rust_type fuel s input false with
        | .error e => .error e
        | .ok (t, r) =>
          match struct_members fuel r input with
          | .error e => .error e
          | .ok (vec, r2) => .ok (t :: vec, r2)
end

/-- Embedding of `to_rust_type`: run the decoder on the signature's
characters with an always-sufficient step budget.  The result keeps the
unconsumed characters so that consumption claims can be stated; the Rust
function returns only the string and never looks at the rest. -/
def to_rust_type_e (ty : String) (input as_ref : Bool) :
    Except DecodeErr (String × List Char) :=
  iter_to_rust_type (2 * ty.length + 2) ty.data input as_ref

/-- The string the Rust `to_rust_type` returns (`none` = panic). -/
def to_rust_type_s (ty : String) (input as_ref : Bool) : Option String :=
  (to_rust_type_e ty input as_ref).toOption.map Prod.fst

/-- The single-character type codes the decoder accepts. -/
def basicChar (c : Char) : Bool :=
  c == 'y' || c == 'b' || c == 'n' || c == 'q' || c == 'i' || c == 'u' ||
  c == 'x' || c == 't' || c == 'd' || c == 'h' || c == 's' || c == 'o' ||
  c == 'g' || c == 'v'

/-- Well-formed single complete types of the signature grammar the decoder
implements: a basic code, an array of a complete type, an array of a
dictionary entry (basic key, complete value), or a structure with at least
one complete member. -/
inductive WF : List Char → Prop where
  | basic (c : Char) : basicChar c = true → WF [c]
  | arr (e : List Char) : WF e → WF ('a' :: e)
  | dict (k : Char) (v : List Char) : basicChar k = true → WF v →
      WF ('a' :: '{' :: k :: (v ++ ['}']))
  | strukt (tys : List (List Char)) : tys ≠ [] → (∀ t ∈ tys, WF t) →
      WF ('(' :: tys.flatten ++ [')'])

/-- The list starts with a composite-closing delimiter. -/
def closerHead (l : List Char) : Prop :=
  ∃ c l', l = c :: l' ∧ (c = ')' ∨ c = '}')

theorem basicChar_cases {c : Char} (h : basicChar c = true) :
    c = 'y' ∨ c = 'b' ∨ c = 'n' ∨ c = 'q' ∨ c = 'i' ∨ c = 'u' ∨ c = 'x' ∨
    c = 't' ∨ c = 'd' ∨ c = 'h' ∨ c = 's' ∨ c = 'o' ∨ c = 'g' ∨ c = 'v' := by
  have h' := h
  simp only [basicChar, Bool.or_eq_true, beq_iff_eq] at h'
  tauto

theorem wf_head {v : List Char} (h : WF v) :
    ∃ c r, v = c :: r ∧ ¬(c = ')' ∨ c = '}') ∧ c ≠ '{' := by
  cases h with
  | basic c hb =>
    refine ⟨c, [], rfl, ?_, ?_⟩ <;>
      rcases basicChar_cases hb with rfl|rfl|rfl|rfl|rfl|rfl|rfl|rfl|rfl|rfl|rfl|rfl|rfl|rfl <;>
      decide
  | arr e he => exact ⟨'a', e, rfl, by decide, by decide⟩
  | dict k v hk hv => exact ⟨'a', _, rfl, by decide, by decide⟩
  | strukt tys ht hwf => exact ⟨'(', _, rfl, by decide, by decide⟩

theorem wf_ne_nil {v : List Char} (h : WF v) : v ≠ [] := by
  obtain ⟨c, r, rfl, -, -⟩ := wf_head h
  simp

theorem basic_decode {c : Char} (h : basicChar c = true) (input ar : Bool) :
    ∃ out, ∀ (tail : List Char) (fuel : Nat), 1 ≤ fuel →
      iter_to_rust_type fuel (c :: tail) input ar = .ok (out, tail) := by
  rcases basicChar_cases h with rfl|rfl|rfl|rfl|rfl|rfl|rfl|rfl|rfl|rfl|rfl|rfl|rfl|rfl <;>
    exact ⟨_, fun tail fuel hf => by
      cases fuel with
      | zero => omega
      | succ g => rfl⟩
theorem iter_arr_dict_step (g : Nat) (r2 : List Char) (input ar : Bool) :
    iter_to_rust_type (g + 1) ('a' :: '{' :: r2) input ar =
      match iter_to_rust_type g ('{' :: r2) input false with
      | .error e => .error e
      | .ok (t, r) => .ok ("std::collections::HashMap<" ++ t ++ ">", r) := rfl

theorem iter_arr_step (g : Nat) (c2 : Char) (r2 : List Char) (input ar : Bool)
    (h : c2 ≠ '{') :
    iter_to_rust_type (g + 1) ('a' :: c2 :: r2) input ar =
      match iter_to_rust_type g (c2 :: r2) input false with
      | .error e => .error e
      | .ok (t, r) =>
        .ok (if input then "&[" ++ t ++ "]"
             else (if ar then "&" else "") ++ "Vec<" ++ t ++ ">", r) := by
  simp [iter_to_rust_type, h]

theorem iter_paren_step (g : Nat) (r : List Char) (input ar : Bool) :
    iter_to_rust_type (g + 1) ('(' :: r) input ar =
      match struct_members g r input with
      | .error e => .error e
      | .ok (vec, r2) =>
        if vec.length > 1 then
          .ok ((if ar then "&" else "") ++ "(" ++ joinComma vec ++ ")", r2)
        else
          match vec with
          | [] => .error .emptyStructIndex
          | t :: _ => .ok (t, r2) := rfl

theorem iter_brace_step (g : Nat) (r : List Char) (input ar : Bool) :
    iter_to_rust_type (g + 1) ('{' :: r) input ar =
      match struct_members g r input with
      | .error e => .error e
      | .ok (vec, r2) => .ok (joinComma vec, r2) := rfl

theorem struct_members_stop (g : Nat) (c : Char) (s' : List Char) (input : Bool)
    (h : c = ')' ∨ c = '}') :
    struct_members (g + 1) (c :: s') input = .ok ([], c :: s') := by
  simp [struct_members, h]

theorem struct_members_go (g : Nat) (c : Char) (s' : List Char) (input : Bool)
    (h : ¬(c = ')' ∨ c = '}')) :
    struct_members (g + 1) (c :: s') input =
      match iter_to_rust_type g (c :: s') input false with
      | .error e => .error e
      | .ok (t, r) =>
        match struct_members g r input with
        | .error e => .error e
        | .ok (vec, r2) => .ok (t :: vec, r2) := by
  simp [struct_members, h]



theorem iter_arr_dict_ok {g : Nat} {r2 : List Char} {input ar : Bool} {t : String}
    {r : List Char}
    (hit : iter_to_rust_type g ('{' :: r2) input false = .ok (t, r)) :
    iter_to_rust_type (g + 1) ('a' :: '{' :: r2) input ar =
      .ok ("std::collections::HashMap<" ++ t ++ ">", r) := by
  rw [iter_arr_dict_step, hit]

theorem iter_arr_ok {g : Nat} {c2 : Char} {r2 : List Char} {input ar : Bool}
    {t : String} {r : List Char} (h : c2 ≠ '{')
    (hit : iter_to_rust_type g (c2 :: r2) input false = .ok (t, r)) :
    iter_to_rust_type (g + 1) ('a' :: c2 :: r2) input ar =
      .ok (if input then "&[" ++ t ++ "]"
           else (if ar then "&" else "") ++ "Vec<" ++ t ++ ">", r) := by
  rw [iter_arr_step g c2 r2 input ar h, hit]

theorem iter_paren_ok_many {g : Nat} {r : List Char} {input ar : Bool}
    {vec : List String} {r2 : List Char}
    (hm : struct_members g r input = .ok (vec, r2)) (hlen : vec.length > 1) :
    iter_to_rust_type (g + 1) ('(' :: r) input ar =
      .ok ((if ar then "&" else "") ++ "(" ++ joinComma vec ++ ")", r2) := by
  rw [iter_paren_step, hm]
  simp [hlen]

theorem iter_paren_ok_one {g : Nat} {r : List Char} {input ar : Bool}
    {t : String} {r2 : List Char}
    (hm : struct_members g r input = .ok ([t], r2)) :
    iter_to_rust_type (g + 1) ('(' :: r) input ar = .ok (t, r2) := by
  rw [iter_paren_step, hm]
  rfl

theorem iter_brace_ok {g : Nat} {r : List Char} {input : Bool} {ar : Bool}
    {vec : List String} {r2 : List Char}
    (hm : struct_members g r input = .ok (vec, r2)) :
    iter_to_rust_type (g + 1) ('{' :: r) input ar = .ok (joinComma vec, r2) := by
  rw [iter_brace_step, hm]

theorem struct_members_cons {g : Nat} {c : Char} {s' : List Char} {input : Bool}
    {t : String} {r : List Char} {vec : List String} {r2 : List Char}
    (h : ¬(c = ')' ∨ c = '}'))
    (hit : iter_to_rust_type g (c :: s') input false = .ok (t, r))
    (hrest : struct_members g r input = .ok (vec, r2)) :
    struct_members (g + 1) (c :: s') input = .ok (t :: vec, r2) := by
  rw [struct_members_go g c s' input h, hit]
  dsimp only
  rw [hrest]

/-- Behaviour of the member loop on a sequence of well-formed types followed
by a closing delimiter: it returns one decoded string per member up to (and
including) the first member whose decode leaves a pending closing delimiter
behind — after such a member the loop's peek sees that delimiter and stops,
abandoning the remaining members (a consequence of the loop never consuming
closing delimiters). -/
theorem members_decode (tys : List (List Char)) (htys : tys ≠ [])
    (hwf : ∀ t ∈ tys, WF t)
    (hdec : ∀ t ∈ tys, ∀ input ar : Bool, ∃ out left,
      (left = [] ∨ closerHead left) ∧
      ∀ (tail : List Char) (fuel : Nat), 2 * t.length ≤ fuel →
        iter_to_rust_type fuel (t ++ tail) input ar = .ok (out, left ++ tail))
    (input : Bool) :
    ∃ vec rem, vec ≠ [] ∧ (rem = [] ∨ closerHead rem) ∧
      ∀ (tail : List Char) (fuel : Nat), closerHead tail →
        2 * tys.flatten.length + 1 ≤ fuel →
        struct_members fuel (tys.flatten ++ tail) input = .ok (vec, rem ++ tail) := by
  induction tys with
  | nil => exact absurd rfl htys
  | cons t tys ih =>
    obtain ⟨out1, left1, hcl1, hrun1⟩ := hdec t (by simp) input false
    obtain ⟨c, r, hteq, hc, -⟩ := wf_head (hwf t (by simp))
    have hlen : 1 ≤ t.length := by rw [hteq]; simp
    rcases hcl1 with hl1 | ⟨cc, ll, hlleq, hcc⟩
    · subst hl1
      rcases tys with _ | ⟨t2, tys2⟩
      · refine ⟨[out1], [], by simp, Or.inl rfl, ?_⟩
        intro tail fuel hcl hf
        simp only [List.flatten_cons, List.flatten_nil, List.append_nil,
          List.length_nil, List.nil_append] at hf ⊢
        obtain ⟨g2, rfl⟩ : ∃ g2, fuel = g2 + 2 := ⟨fuel - 2, by omega⟩
        obtain ⟨ct, lt', hteq2, hct⟩ := hcl
        rw [hteq, List.cons_append]
        have hfirst : iter_to_rust_type (g2 + 1) (c :: (r ++ tail)) input false =
            .ok (out1, tail) := by
          have h1 := hrun1 tail (g2 + 1) (by omega)
          rw [hteq] at h1
          simpa using h1
        have hrest : struct_members (g2 + 1) tail input = .ok ([], tail) := by
          rw [hteq2]
          exact struct_members_stop g2 ct lt' input hct
        exact struct_members_cons hc hfirst hrest
      · have ih' := ih (by simp)
          (fun x hx => hwf x (List.mem_cons_of_mem t hx))
          (fun x hx input ar => hdec x (List.mem_cons_of_mem t hx) input ar)
        obtain ⟨vec', rem', hvec', hcl', hrun'⟩ := ih'
        refine ⟨out1 :: vec', rem', by simp, hcl', ?_⟩
        intro tail fuel hcl hf
        simp only [List.flatten_cons, List.length_append] at hf ⊢
        obtain ⟨g, rfl⟩ : ∃ g, fuel = g + 1 := ⟨fuel - 1, by omega⟩
        rw [List.append_assoc, hteq, List.cons_append]
        have hfirst : iter_to_rust_type g
            (c :: (r ++ ((t2 :: tys2).flatten ++ tail))) input false =
            .ok (out1, (t2 :: tys2).flatten ++ tail) := by
          have h1 := hrun1 ((t2 :: tys2).flatten ++ tail) g (by omega)
          rw [hteq] at h1
          simpa using h1
        have hrest := hrun' tail g hcl (by
          simp only [List.flatten_cons, List.length_append] at *
          omega)
        exact struct_members_cons hc hfirst hrest
    · subst hlleq
      refine ⟨[out1], (cc :: ll) ++ tys.flatten,
        by simp, Or.inr ⟨cc, ll ++ tys.flatten, by simp, hcc⟩, ?_⟩
      intro tail fuel hcl hf
      simp only [List.flatten_cons, List.length_append] at hf ⊢
      obtain ⟨g2, rfl⟩ : ∃ g2, fuel = g2 + 2 := ⟨fuel - 2, by omega⟩
      rw [List.append_assoc, hteq, List.cons_append]
      have hfirst : iter_to_rust_type (g2 + 1)
          (c :: (r ++ (tys.flatten ++ tail))) input false =
          .ok (out1, cc :: (ll ++ (tys.flatten ++ tail))) := by
        have h1 := hrun1 (tys.flatten ++ tail) (g2 + 1) (by omega)
        rw [hteq] at h1
        simpa using h1
      have hrest : struct_members (g2 + 1)
          (cc :: (ll ++ (tys.flatten ++ tail))) input =
          .ok ([], cc :: (ll ++ (tys.flatten ++ tail))) :=
        struct_members_stop g2 cc (ll ++ (tys.flatten ++ tail)) input hcc
      have hres := struct_members_cons hc hfirst hrest
      rw [hres]
      simp [List.append_assoc]

theorem basic_not_closer {c : Char} (h : basicChar c = true) :
    ¬(c = ')' ∨ c = '}') ∧ c ≠ '{' := by
  rcases basicChar_cases h with rfl|rfl|rfl|rfl|rfl|rfl|rfl|rfl|rfl|rfl|rfl|rfl|rfl|rfl <;>
    exact ⟨by decide, by decide⟩

/-- Main behaviour of the decoder on a well-formed type: it never fails,
the produced type string and the pending leftover characters depend only on
the type (not on what follows it or on the step budget), and the leftover
either is empty or starts with a closing delimiter. -/
theorem decode_wf {v : List Char} (hv : WF v) : ∀ input ar : Bool,
    ∃ out left, (left = [] ∨ closerHead left) ∧
      ∀ (tail : List Char) (fuel : Nat), 2 * v.length ≤ fuel →
        iter_to_rust_type fuel (v ++ tail) input ar = .ok (out, left ++ tail) := by
  induction hv with
  | basic c h =>
    intro input ar
    obtain ⟨out, hout⟩ := basic_decode h input ar
    refine ⟨out, [], Or.inl rfl, ?_⟩
    intro tail fuel hf
    simp only [List.length_singleton] at hf
    exact hout tail fuel (by omega)
  | arr e he ihe =>
    intro input ar
    obtain ⟨out, left, hcl, hrun⟩ := ihe input false
    obtain ⟨c, r, heeq, hc, hnb⟩ := wf_head he
    refine ⟨if input then "&[" ++ out ++ "]"
            else (if ar then "&" else "") ++ "Vec<" ++ out ++ ">", left, hcl, ?_⟩
    intro tail fuel hf
    simp only [List.length_cons] at hf
    obtain ⟨g, rfl⟩ : ∃ g, fuel = g + 1 := ⟨fuel - 1, by omega⟩
    rw [List.cons_append, heeq, List.cons_append]
    have hfirst : iter_to_rust_type g (c :: (r ++ tail)) input false =
        .ok (out, left ++ tail) := by
      have h1 := hrun tail g (by rw [heeq] at hf ⊢; simp only [List.length_cons] at hf ⊢; omega)
      rw [heeq] at h1
      simpa using h1
    exact iter_arr_ok hnb hfirst
  | dict k v hk hv ihv =>
    intro input ar
    obtain ⟨outk, houtk⟩ := basic_decode hk input false
    obtain ⟨outv, leftv, hclv, hrunv⟩ := ihv input false
    refine ⟨"std::collections::HashMap<" ++ joinComma [outk, outv] ++ ">",
      leftv ++ ['}'], ?_, ?_⟩
    · rcases hclv with rfl | ⟨c0, l0, rfl, hc0⟩
      · exact Or.inr ⟨'}', [], rfl, Or.inr rfl⟩
      · exact Or.inr ⟨c0, l0 ++ ['}'], by simp, hc0⟩
    intro tail fuel hf
    simp only [List.length_cons, List.length_append, List.length_singleton] at hf
    obtain ⟨g, rfl⟩ : ∃ g, fuel = g + 5 := ⟨fuel - 5, by omega⟩
    simp only [List.cons_append, List.append_assoc, List.singleton_append]
    have hstop : struct_members (g + 1) (leftv ++ '}' :: tail) input =
        .ok ([], leftv ++ '}' :: tail) := by
      rcases hclv with rfl | ⟨c0, l0, rfl, hc0⟩
      · exact struct_members_stop g '}' tail input (Or.inr rfl)
      · rw [List.cons_append]
        exact struct_members_stop g c0 (l0 ++ '}' :: tail) input hc0
    have hv1 : iter_to_rust_type (g + 1) (v ++ '}' :: tail) input false =
        .ok (outv, leftv ++ '}' :: tail) :=
      hrunv ('}' :: tail) (g + 1) (by omega)
    have hsm2 : struct_members (g + 2) (v ++ '}' :: tail) input =
        .ok ([outv], leftv ++ '}' :: tail) := by
      obtain ⟨cv, rv, hveq, hcv, -⟩ := wf_head hv
      rw [hveq, List.cons_append]
      have hv1' : iter_to_rust_type (g + 1) (cv :: (rv ++ '}' :: tail)) input false =
          .ok (outv, leftv ++ '}' :: tail) := by
        rw [← List.cons_append, ← hveq]
        exact hv1
      exact struct_members_cons hcv hv1' hstop
    have hsm3 : struct_members (g + 3) (k :: (v ++ '}' :: tail)) input =
        .ok ([outk, outv], leftv ++ '}' :: tail) :=
      struct_members_cons (basic_not_closer hk).1
        (houtk (v ++ '}' :: tail) (g + 2) (by omega)) hsm2
    have hbr : iter_to_rust_type (g + 4) ('{' :: k :: (v ++ '}' :: tail)) input false =
        .ok (joinComma [outk, outv], leftv ++ '}' :: tail) := iter_brace_ok hsm3
    have hfin : iter_to_rust_type (g + 5) ('a' :: '{' :: k :: (v ++ '}' :: tail)) input ar =
        .ok ("std::collections::HashMap<" ++ joinComma [outk, outv] ++ ">",
          leftv ++ '}' :: tail) := iter_arr_dict_ok hbr
    exact hfin
  | strukt tys htys hwf ih =>
    intro input ar
    obtain ⟨vec, rem, hvec, hclrem, hrun⟩ := members_decode tys htys hwf ih input
    have hclor : (rem ++ [')'] : List Char) = [] ∨ closerHead (rem ++ [')']) := by
      rcases hclrem with rfl | ⟨c0, l0, rfl, hc0⟩
      · exact Or.inr ⟨')', [], rfl, Or.inl rfl⟩
      · exact Or.inr ⟨c0, l0 ++ [')'], by simp, hc0⟩
    rcases vec with _ | ⟨t1, vecrest⟩
    · exact absurd rfl hvec
    rcases vecrest with _ | ⟨t2, vecrest2⟩
    · refine ⟨t1, rem ++ [')'], hclor, ?_⟩
      intro tail fuel hf
      simp only [List.length_cons, List.length_append, List.length_singleton] at hf
      obtain ⟨g, rfl⟩ : ∃ g, fuel = g + 1 := ⟨fuel - 1, by omega⟩
      simp only [List.cons_append, List.append_assoc, List.singleton_append]
      have hm := hrun (')' :: tail) g ⟨')', tail, rfl, Or.inl rfl⟩ (by omega)
      exact iter_paren_ok_one hm
    · refine ⟨(if ar then "&" else "") ++ "(" ++ joinComma (t1 :: t2 :: vecrest2) ++ ")",
        rem ++ [')'], hclor, ?_⟩
      intro tail fuel hf
      simp only [List.length_cons, List.length_append, List.length_singleton] at hf
      obtain ⟨g, rfl⟩ : ∃ g, fuel = g + 1 := ⟨fuel - 1, by omega⟩
      simp only [List.cons_append, List.append_assoc, List.singleton_append]
      have hm := hrun (')' :: tail) g ⟨')', tail, rfl, Or.inl rfl⟩ (by omega)
      exact iter_paren_ok_many hm (by simp only [List.length_cons]; omega)

/-- C1: the claim asserts full consumption of the signature (closing
delimiters included), but the member loop never consumes a closing
delimiter: decoding the well-formed structure signature "(ii)" succeeds and
leaves the final ')' unconsumed. -/
theorem C1_close_delimiters_left :
    to_rust_type_e "(ii)" false false = .ok ("(i32, i32)", [')']) := rfl

/-- C2: because pending closing delimiters are never consumed, a structure
whose non-final member is an array-of-dict-entry loses all later members:
"(a{us}i)" has two members but decodes to the mapping type alone (the
single-member fallback), not to a 2-tuple. -/
theorem C2_struct_member_dropped :
    to_rust_type_e "(a\x7bus\x7di)" false false =
      .ok ("std::collections::HashMap<u32, String>", ['}', 'i', ')']) := rfl

/-- C10: decoding the zero-member structure signature "()" fails through the
out-of-bounds `vec[0]` index (the single-member fallback), an error distinct
from the unknown-code and exhausted-input failures; the fallback returns a
value only when at least one member was decoded. -/
theorem C10_empty_struct_index :
    to_rust_type_e "()" false false = .error .emptyStructIndex ∧
    DecodeErr.emptyStructIndex ≠ DecodeErr.eof ∧
    ∀ c : Char, DecodeErr.emptyStructIndex ≠ DecodeErr.unknownCode c := by
  refine ⟨rfl, by simp, fun c => by simp⟩

/-- C6 counterexample: the claim says a translation call fails when trailing
unconsumed characters remain after the outermost type, but the translator
never checks for trailing characters: "ii" decodes successfully to "i32"
with the second 'i' left over. -/
theorem C6_trailing_ignored :
    to_rust_type_e "ii" false false = .ok ("i32", ['i']) := rfl

/-- C4 counterexample: with `is_input = false` and `prefer_reference = true`
the string code yields the borrowed slice form `&str`, so an output
translation of a string is borrowed when `prefer_reference` is set. -/
theorem C4_output_string_borrowed :
    to_rust_type_e "s" false true = .ok ("&str", []) ∧
    ("&str").data.head? = some '&' := ⟨rfl, rfl⟩

/-- C4 (amended): for the object-path, signature-as-value and variant codes,
`is_input = false` yields the owned type for both values of
`prefer_reference`; for the string code, `is_input = false` yields the owned
`String` only when `prefer_reference` is false, and the borrowed `&str` when
it is set. -/
theorem C4_output_owned_amended : ∀ ar : Bool,
    to_rust_type_e "o" false ar = .ok ("zbus::zvariant::OwnedObjectPath", []) ∧
    to_rust_type_e "g" false ar = .ok ("zbus::zvariant::OwnedSignature", []) ∧
    to_rust_type_e "v" false ar = .ok ("zbus::zvariant::OwnedValue", []) ∧
    to_rust_type_e "s" false false = .ok ("String", []) ∧
    to_rust_type_e "s" false true = .ok ("&str", []) := by
  intro ar
  cases ar <;> exact ⟨rfl, rfl, rfl, rfl, rfl⟩

/-- C3 counterexample: the claim says the direction flag is not propagated
into nested decodes, but the code passes `input` through unchanged: the
element of "as" decoded under `is_input = true` is the borrowed `&str`
(= the translation of "s" at `is_input = true`), not the owned `String`
(= its translation at `is_input = false`). -/
theorem C3_input_propagated :
    to_rust_type_e "as" true false = .ok ("&[&str]", []) ∧
    to_rust_type_e "s" true false = .ok ("&str", []) ∧
    to_rust_type_e "s" false false = .ok ("String", []) ∧
    ("&[&str]" : String) ≠ "&[" ++ "String" ++ "]" := by
  refine ⟨rfl, rfl, rfl, by decide⟩

theorem amp_prepend (a b : String) : "&" ++ (a ++ b) = ("&" ++ a) ++ b :=
  (String.append_assoc "&" a b).symm

theorem iter_unknown (g : Nat) (c : Char) (rest : List Char) (input ar : Bool)
    (hy : c ≠ 'y') (hb : c ≠ 'b') (hn : c ≠ 'n') (hq : c ≠ 'q') (hi : c ≠ 'i')
    (hu : c ≠ 'u') (hx : c ≠ 'x') (hT : c ≠ 't') (hd : c ≠ 'd') (hh : c ≠ 'h')
    (hs : c ≠ 's') (ho : c ≠ 'o') (hg : c ≠ 'g') (hv : c ≠ 'v') (ha : c ≠ 'a')
    (hp : c ≠ '(') (hbr : c ≠ '{') :
    iter_to_rust_type (g + 1) (c :: rest) input ar = .error (.unknownCode c) := by
  simp [iter_to_rust_type, hy, hb, hn, hq, hi, hu, hx, hT, hd, hh, hs, ho, hg, hv,
    ha, hp, hbr]

/-- C3 (amended): `prefer_reference` is never propagated into recursive
decodes (they all receive `as_ref = false`), so flipping the outermost
call's `prefer_reference` changes at most the outermost form of the result:
the result is unchanged, or gains a leading reference, or (string code at
`is_input = false`) switches from the owned `String` to the borrowed `&str`;
the unconsumed remainder is identical.  (`is_input`, by contrast, is passed
through unchanged into every recursive decode — see `C3_input_propagated`.) -/
theorem C3_prefer_reference_outermost (fuel : Nat) (s : List Char) (input : Bool)
    (t : String) (r : List Char)
    (h : iter_to_rust_type fuel s input false = .ok (t, r)) :
    ∃ t', iter_to_rust_type fuel s input true = .ok (t', r) ∧
      (t' = t ∨ t' = "&" ++ t ∨ (t = "String" ∧ t' = "&str")) := by
  rcases fuel with _ | g
  · exact absurd h (by simp [iter_to_rust_type])
  rcases s with _ | ⟨c, rest⟩
  · exact absurd h (by simp [iter_to_rust_type])
  by_cases hy : c = 'y'
  · subst hy
    rw [show iter_to_rust_type (g + 1) ('y' :: rest) input false =
      .ok ("u8", rest) from rfl] at h
    injection h with hpair
    rw [Prod.mk.injEq] at hpair
    obtain ⟨ht2, hr2⟩ := hpair
    subst ht2
    subst hr2
    exact ⟨"u8", rfl, Or.inl rfl⟩
  by_cases hb : c = 'b'
  · subst hb
    rw [show iter_to_rust_type (g + 1) ('b' :: rest) input false =
      .ok ("bool", rest) from rfl] at h
    injection h with hpair
    rw [Prod.mk.injEq] at hpair
    obtain ⟨ht2, hr2⟩ := hpair
    subst ht2
    subst hr2
    exact ⟨"bool", rfl, Or.inl rfl⟩
  by_cases hn : c = 'n'
  · subst hn
    rw [show iter_to_rust_type (g + 1) ('n' :: rest) input false =
      .ok ("i16", rest) from rfl] at h
    injection h with hpair
    rw [Prod.mk.injEq] at hpair
    obtain ⟨ht2, hr2⟩ := hpair
    subst ht2
    subst hr2
    exact ⟨"i16", rfl, Or.inl rfl⟩
  by_cases hq : c = 'q'
  · subst hq
    rw [show iter_to_rust_type (g + 1) ('q' :: rest) input false =
      .ok ("u16", rest) from rfl] at h
    injection h with hpair
    rw [Prod.mk.injEq] at hpair
    obtain ⟨ht2, hr2⟩ := hpair
    subst ht2
    subst hr2
    exact ⟨"u16", rfl, Or.inl rfl⟩
  by_cases hi : c = 'i'
  · subst hi
    rw [show iter_to_rust_type (g + 1) ('i' :: rest) input false =
      .ok ("i32", rest) from rfl] at h
    injection h with hpair
    rw [Prod.mk.injEq] at hpair
    obtain ⟨ht2, hr2⟩ := hpair
    subst ht2
    subst hr2
    exact ⟨"i32", rfl, Or.inl rfl⟩
  by_cases hu : c = 'u'
  · subst hu
    rw [show iter_to_rust_type (g + 1) ('u' :: rest) input false =
      .ok ("u32", rest) from rfl] at h
    injection h with hpair
    rw [Prod.mk.injEq] at hpair
    obtain ⟨ht2, hr2⟩ := hpair
    subst ht2
    subst hr2
    exact ⟨"u32", rfl, Or.inl rfl⟩
  by_cases hx : c = 'x'
  · subst hx
    rw [show iter_to_rust_type (g + 1) ('x' :: rest) input false =
      .ok ("i64", rest) from rfl] at h
    injection h with hpair
    rw [Prod.mk.injEq] at hpair
    obtain ⟨ht2, hr2⟩ := hpair
    subst ht2
    subst hr2
    exact ⟨"i64", rfl, Or.inl rfl⟩
  by_cases hT : c = 't'
  · subst hT
    rw [show iter_to_rust_type (g + 1) ('t' :: rest) input false =
      .ok ("u64", rest) from rfl] at h
    injection h with hpair
    rw [Prod.mk.injEq] at hpair
    obtain ⟨ht2, hr2⟩ := hpair
    subst ht2
    subst hr2
    exact ⟨"u64", rfl, Or.inl rfl⟩
  by_cases hd : c = 'd'
  · subst hd
    rw [show iter_to_rust_type (g + 1) ('d' :: rest) input false =
      .ok ("f64", rest) from rfl] at h
    injection h with hpair
    rw [Prod.mk.injEq] at hpair
    obtain ⟨ht2, hr2⟩ := hpair
    subst ht2
    subst hr2
    exact ⟨"f64", rfl, Or.inl rfl⟩
  by_cases hh : c = 'h'
  · subst hh
    rw [show iter_to_rust_type (g + 1) ('h' :: rest) input false =
      .ok ((if input then "zbus::zvariant::Fd" else "zbus::zvariant::OwnedFd"),
        rest) from rfl] at h
    injection h with hpair
    rw [Prod.mk.injEq] at hpair
    obtain ⟨ht2, hr2⟩ := hpair
    subst ht2
    subst hr2
    exact ⟨_, rfl, Or.inl rfl⟩
  by_cases hs : c = 's'
  · subst hs
    cases input with
    | true =>
      rw [show iter_to_rust_type (g + 1) ('s' :: rest) true false =
        .ok ("&str", rest) from rfl] at h
      injection h with hpair
      rw [Prod.mk.injEq] at hpair
      obtain ⟨ht2, hr2⟩ := hpair
      subst ht2
      subst hr2
      exact ⟨"&str", rfl, Or.inl rfl⟩
    | false =>
      rw [show iter_to_rust_type (g + 1) ('s' :: rest) false false =
        .ok ("String", rest) from rfl] at h
      injection h with hpair
      rw [Prod.mk.injEq] at hpair
      obtain ⟨ht2, hr2⟩ := hpair
      subst ht2
      subst hr2
      exact ⟨"&str", rfl, Or.inr (Or.inr ⟨rfl, rfl⟩)⟩
  by_cases ho : c = 'o'
  · subst ho
    cases input with
    | true =>
      rw [show iter_to_rust_type (g + 1) ('o' :: rest) true false =
        .ok ("zbus::zvariant::ObjectPath<\x27_>", rest) from rfl] at h
      injection h with hpair
      rw [Prod.mk.injEq] at hpair
      obtain ⟨ht2, hr2⟩ := hpair
      subst ht2
      subst hr2
      exact ⟨"&" ++ "zbus::zvariant::ObjectPath<\x27_>", rfl, Or.inr (Or.inl rfl)⟩
    | false =>
      rw [show iter_to_rust_type (g + 1) ('o' :: rest) false false =
        .ok ("zbus::zvariant::OwnedObjectPath", rest) from rfl] at h
      injection h with hpair
      rw [Prod.mk.injEq] at hpair
      obtain ⟨ht2, hr2⟩ := hpair
      subst ht2
      subst hr2
      exact ⟨"zbus::zvariant::OwnedObjectPath", rfl, Or.inl rfl⟩
  by_cases hg : c = 'g'
  · subst hg
    cases input with
    | true =>
      rw [show iter_to_rust_type (g + 1) ('g' :: rest) true false =
        .ok ("zbus::zvariant::Signature<\x27_>", rest) from rfl] at h
      injection h with hpair
      rw [Prod.mk.injEq] at hpair
      obtain ⟨ht2, hr2⟩ := hpair
      subst ht2
      subst hr2
      exact ⟨"&" ++ "zbus::zvariant::Signature<\x27_>", rfl, Or.inr (Or.inl rfl)⟩
    | false =>
      rw [show iter_to_rust_type (g + 1) ('g' :: rest) false false =
        .ok ("zbus::zvariant::OwnedSignature", rest) from rfl] at h
      injection h with hpair
      rw [Prod.mk.injEq] at hpair
      obtain ⟨ht2, hr2⟩ := hpair
      subst ht2
      subst hr2
      exact ⟨"zbus::zvariant::OwnedSignature", rfl, Or.inl rfl⟩
  by_cases hv : c = 'v'
  · subst hv
    cases input with
    | true =>
      rw [show iter_to_rust_type (g + 1) ('v' :: rest) true false =
        .ok ("zbus::zvariant::Value<\x27_>", rest) from rfl] at h
      injection h with hpair
      rw [Prod.mk.injEq] at hpair
      obtain ⟨ht2, hr2⟩ := hpair
      subst ht2
      subst hr2
      exact ⟨"&" ++ "zbus::zvariant::Value<\x27_>", rfl, Or.inr (Or.inl rfl)⟩
    | false =>
      rw [show iter_to_rust_type (g + 1) ('v' :: rest) false false =
        .ok ("zbus::zvariant::OwnedValue", rest) from rfl] at h
      injection h with hpair
      rw [Prod.mk.injEq] at hpair
      obtain ⟨ht2, hr2⟩ := hpair
      subst ht2
      subst hr2
      exact ⟨"zbus::zvariant::OwnedValue", rfl, Or.inl rfl⟩
  by_cases ha : c = 'a'
  · subst ha
    rcases rest with _ | ⟨c2, r2⟩
    · rw [show iter_to_rust_type (g + 1) ['a'] input false = .error .eof from rfl] at h
      simp at h
    by_cases hbk : c2 = '{'
    · subst hbk
      rw [iter_arr_dict_step] at h
      cases hE : iter_to_rust_type g ('{' :: r2) input false with
      | error e =>
        rw [hE] at h
        simp at h
      | ok p =>
        obtain ⟨t0, r0⟩ := p
        rw [hE] at h
        injection h with hpair
        rw [Prod.mk.injEq] at hpair
        obtain ⟨ht2, hr2⟩ := hpair
        subst ht2
        subst hr2
        exact ⟨_, iter_arr_dict_ok hE, Or.inl rfl⟩
    · rw [iter_arr_step g c2 r2 input false hbk] at h
      cases hE : iter_to_rust_type g (c2 :: r2) input false with
      | error e =>
        rw [hE] at h
        simp at h
      | ok p =>
        obtain ⟨t0, r0⟩ := p
        rw [hE] at h
        injection h with hpair
        rw [Prod.mk.injEq] at hpair
        obtain ⟨ht2, hr2⟩ := hpair
        subst ht2
        subst hr2
        cases input with
        | true => exact ⟨_, iter_arr_ok hbk hE, Or.inl rfl⟩
        | false =>
          refine ⟨_, iter_arr_ok hbk hE, Or.inr (Or.inl ?_)⟩
          simp [amp_prepend]
  by_cases hpa : c = '('
  · subst hpa
    rw [iter_paren_step] at h
    cases hE : struct_members g rest input with
    | error e =>
      rw [hE] at h
      simp at h
    | ok p =>
      obtain ⟨vec, r2⟩ := p
      rw [hE] at h
      dsimp only at h
      by_cases hlen : vec.length > 1
      · rw [if_pos hlen] at h
        injection h with hpair
        rw [Prod.mk.injEq] at hpair
        obtain ⟨ht2, hr2⟩ := hpair
        subst ht2
        subst hr2
        refine ⟨_, iter_paren_ok_many hE hlen, Or.inr (Or.inl ?_)⟩
        simp [amp_prepend]
      · rw [if_neg hlen] at h
        rcases vec with _ | ⟨t1, vec2⟩
        · simp at h
        rcases vec2 with _ | ⟨t2, vec3⟩
        · injection h with hpair
          rw [Prod.mk.injEq] at hpair
          obtain ⟨ht2, hr2⟩ := hpair
          subst ht2
          subst hr2
          exact ⟨t1, iter_paren_ok_one hE, Or.inl rfl⟩
        · exact absurd (by simp only [List.length_cons]; omega) hlen
  by_cases hbc : c = '{'
  · subst hbc
    rw [iter_brace_step] at h
    cases hE : struct_members g rest input with
    | error e =>
      rw [hE] at h
      simp at h
    | ok p =>
      obtain ⟨vec, r2⟩ := p
      rw [hE] at h
      injection h with hpair
      rw [Prod.mk.injEq] at hpair
      obtain ⟨ht2, hr2⟩ := hpair
      subst ht2
      subst hr2
      exact ⟨_, iter_brace_ok hE, Or.inl rfl⟩
  · rw [iter_unknown g c rest input false hy hb hn hq hi hu hx hT hd hh hs ho hg hv
      ha hpa hbc] at h
    simp at h

/-- C5: on an array code the decoder peeks the next code; if it opens a
dictionary entry the key/value pair is decoded once recursively (with
`prefer_reference` reset to false) and the result is a mapping type whose
two parameters are exactly the recursively decoded key and value types;
otherwise the element is decoded once and the result is a borrowed slice
when `is_input` is set, else a `Vec` with a leading reference exactly when
the outer call's `prefer_reference` was set. -/
theorem C5_array_decode :
    (∀ (k : Char), basicChar k = true → ∀ (v : List Char), WF v →
      ∀ (input ar : Bool), ∃ K V left,
        (∀ (fuel : Nat), 1 ≤ fuel →
          iter_to_rust_type fuel [k] input false = .ok (K, [])) ∧
        (∃ lv, ∀ (tail : List Char) (fuel : Nat), 2 * v.length ≤ fuel →
          iter_to_rust_type fuel (v ++ tail) input false = .ok (V, lv ++ tail)) ∧
        (∀ (tail : List Char) (fuel : Nat), 2 * (v.length + 4) ≤ fuel →
          iter_to_rust_type fuel (('a' :: '{' :: k :: (v ++ ['}'])) ++ tail) input ar =
            .ok ("std::collections::HashMap<" ++ (K ++ ", " ++ V) ++ ">", left ++ tail)))
    ∧
    (∀ (e : List Char), WF e → ∀ (input ar : Bool), ∃ E left,
      (∀ (tail : List Char) (fuel : Nat), 2 * e.length ≤ fuel →
        iter_to_rust_type fuel (e ++ tail) input false = .ok (E, left ++ tail)) ∧
      ∀ (tail : List Char) (fuel : Nat), 2 * (e.length + 1) ≤ fuel →
        iter_to_rust_type fuel (('a' :: e) ++ tail) input ar =
          .ok ((if input then "&[" ++ E ++ "]"
                else (if ar then "&" else "") ++ "Vec<" ++ E ++ ">"), left ++ tail)) := by
  constructor
  · intro k hk v hv input ar
    obtain ⟨outk, houtk⟩ := basic_decode hk input false
    obtain ⟨outv, leftv, hclv, hrunv⟩ := decode_wf hv input false
    refine ⟨outk, outv, leftv ++ ['}'], fun fuel hf => houtk [] fuel hf,
      ⟨leftv, hrunv⟩, ?_⟩
    intro tail fuel hf
    obtain ⟨g, rfl⟩ : ∃ g, fuel = g + 5 := ⟨fuel - 5, by omega⟩
    simp only [List.cons_append, List.append_assoc, List.singleton_append]
    have hstop : struct_members (g + 1) (leftv ++ '}' :: tail) input =
        .ok ([], leftv ++ '}' :: tail) := by
      rcases hclv with rfl | ⟨c0, l0, rfl, hc0⟩
      · exact struct_members_stop g '}' tail input (Or.inr rfl)
      · rw [List.cons_append]
        exact struct_members_stop g c0 (l0 ++ '}' :: tail) input hc0
    have hv1 : iter_to_rust_type (g + 1) (v ++ '}' :: tail) input false =
        .ok (outv, leftv ++ '}' :: tail) :=
      hrunv ('}' :: tail) (g + 1) (by omega)
    have hsm2 : struct_members (g + 2) (v ++ '}' :: tail) input =
        .ok ([outv], leftv ++ '}' :: tail) := by
      obtain ⟨cv, rv, hveq, hcv, -⟩ := wf_head hv
      rw [hveq, List.cons_append]
      have hv1' : iter_to_rust_type (g + 1) (cv :: (rv ++ '}' :: tail)) input false =
          .ok (outv, leftv ++ '}' :: tail) := by
        rw [← List.cons_append, ← hveq]
        exact hv1
      exact struct_members_cons hcv hv1' hstop
    have hsm3 : struct_members (g + 3) (k :: (v ++ '}' :: tail)) input =
        .ok ([outk, outv], leftv ++ '}' :: tail) :=
      struct_members_cons (basic_not_closer hk).1
        (houtk (v ++ '}' :: tail) (g + 2) (by omega)) hsm2
    exact iter_arr_dict_ok (iter_brace_ok hsm3)
  · intro e he input ar
    obtain ⟨E, left, hcl, hrun⟩ := decode_wf he input false
    refine ⟨E, left, hrun, ?_⟩
    intro tail fuel hf
    obtain ⟨g, rfl⟩ : ∃ g, fuel = g + 1 := ⟨fuel - 1, by omega⟩
    obtain ⟨c, r, heeq, hc, hnb⟩ := wf_head he
    simp only [List.cons_append]
    rw [heeq, List.cons_append]
    have hfirst : iter_to_rust_type g (c :: (r ++ tail)) input false =
        .ok (E, left ++ tail) := by
      have h1 := hrun tail g (by omega)
      rw [heeq] at h1
      simpa using h1
    exact iter_arr_ok hnb hfirst

/-- Witness for C5 at the concrete signatures "a{us}" (dictionary) and "ai"
(plain array). -/
theorem C5_array_decode_witness :
    (∃ K V left,
      (∀ (fuel : Nat), 1 ≤ fuel →
        iter_to_rust_type fuel ['u'] false false = .ok (K, [])) ∧
      (∃ lv, ∀ (tail : List Char) (fuel : Nat), 2 * (['s'] : List Char).length ≤ fuel →
        iter_to_rust_type fuel (['s'] ++ tail) false false = .ok (V, lv ++ tail)) ∧
      (∀ (tail : List Char) (fuel : Nat), 2 * ((['s'] : List Char).length + 4) ≤ fuel →
        iter_to_rust_type fuel (('a' :: '{' :: 'u' :: (['s'] ++ ['}'])) ++ tail) false false =
          .ok ("std::collections::HashMap<" ++ (K ++ ", " ++ V) ++ ">", left ++ tail))) ∧
    (∃ E left,
      (∀ (tail : List Char) (fuel : Nat), 2 * (['i'] : List Char).length ≤ fuel →
        iter_to_rust_type fuel (['i'] ++ tail) true false = .ok (E, left ++ tail)) ∧
      ∀ (tail : List Char) (fuel : Nat), 2 * ((['i'] : List Char).length + 1) ≤ fuel →
        iter_to_rust_type fuel (('a' :: ['i']) ++ tail) true false =
          .ok ((if true then "&[" ++ E ++ "]"
                else (if false then "&" else "") ++ "Vec<" ++ E ++ ">"), left ++ tail)) :=
  ⟨C5_array_decode.1 'u' rfl ['s'] (WF.basic 's' rfl) false false,
   C5_array_decode.2 ['i'] (WF.basic 'i' rfl) true false⟩

/-- C6 (amended): a translation call fails iff decoding the single outermost
type itself fails — an unknown type code, input exhausted mid-decode
(truncated input or a never-closed composite), or a zero-member structure.
Decoding never fails on input beginning with a well-formed type, and
trailing unconsumed characters are ignored, not reported. -/
theorem C6_failure_amended :
    (∀ (v : List Char), WF v → ∀ (input ar : Bool) (tail : List Char) (fuel : Nat),
      2 * v.length ≤ fuel → ∃ out left,
        iter_to_rust_type fuel (v ++ tail) input ar = .ok (out, left ++ tail)) ∧
    to_rust_type_e "z" false false = .error (.unknownCode 'z') ∧
    to_rust_type_e "(i" false false = .error .eof ∧
    to_rust_type_e "a" false false = .error .eof ∧
    to_rust_type_e "a()" false false = .error .emptyStructIndex := by
  refine ⟨?_, rfl, rfl, rfl, rfl⟩
  intro v hv input ar tail fuel hf
  obtain ⟨out, left, -, hrun⟩ := decode_wf hv input ar
  exact ⟨out, left, hrun tail fuel hf⟩

/-- Witness for C6 (amended) at the well-formed signature "i". -/
theorem C6_failure_amended_witness :
    ∃ out left, iter_to_rust_type 2 (['i'] ++ []) false false = .ok (out, left ++ []) :=
  C6_failure_amended.1 ['i'] (WF.basic 'i' rfl) false false [] 2 (by decide)

/-- Witness for C3 (amended) at the concrete signature "ai". -/
theorem C3_prefer_reference_outermost_witness :
    ∃ t', iter_to_rust_type 6 ['a', 'i'] false true = .ok (t', []) ∧
      (t' = "Vec<i32>" ∨ t' = "&" ++ "Vec<i32>" ∨
        ("Vec<i32>" = "String" ∧ t' = "&str")) :=
  C3_prefer_reference_outermost 6 ['a', 'i'] false "Vec<i32>" [] rfl

/-- Direction attribute of a method argument (`ArgDirection`). -/
inductive ArgDirection where
  | In : ArgDirection
  | Out : ArgDirection
deriving DecidableEq

/-- An introspected argument: optional name, type signature, optional
direction. -/
structure Arg where
  name : Option String
  ty : String
  direction : Option ArgDirection
deriving DecidableEq

/-- An introspected method: wire name and argument list. -/
structure Method where
  name : String
  args : List Arg
deriving DecidableEq

/-- An introspected signal: wire name and argument list. -/
structure Signal where
  name : String
  args : List Arg
deriving DecidableEq

/-- An introspected property: wire name, type signature and access mode
(`access().read()` / `access().write()`). -/
structure Property where
  name : String
  ty : String
  read : Bool
  write : Bool
deriving DecidableEq

/-- An introspected interface. -/
structure Interface where
  name : String
  methods : List Method
  signals : List Signal
  properties : List Property
deriving DecidableEq

/-- The Rust keyword table `KWORDS` from gen.rs. -/
def KWORDS : List String :=
  ["Self", "abstract", "as", "async", "await", "become", "box", "break",
   "const", "continue", "crate", "do", "dyn", "else", "enum", "extern",
   "false", "final", "fn", "for", "if", "impl", "in", "let", "loop", "macro",
   "match", "mod", "move", "mut", "override", "priv", "pub", "ref", "return",
   "self", "static", "struct", "super", "trait", "true", "try", "type",
   "typeof", "union", "unsafe", "unsized", "use", "virtual", "where",
   "while", "yield"]

/-- `to_identifier` from gen.rs: append '_' to a keyword, otherwise map '-'
to '_' (`id.replace('-', "_")`, a character-for-character substitution). -/
def to_identifier (id : String) : String :=
  if KWORDS.contains id then id ++ "_"
  else String.mk (id.data.map (fun c => if c = '-' then '_' else c))

/-- Worker of `pascal_case`: capitalize after a start or an '_', dropping
the underscores. -/
def pascalGo : List Char → Bool → List Char
  | [], _ => []
  | ch :: rest, capitalize =>
    if ch = '_' then pascalGo rest true
    else if capitalize then ch.toUpper :: pascalGo rest false
    else ch :: pascalGo rest false

/-- `pascal_case` from gen.rs (same as `zbus_macros::utils::pascal_case`). -/
def pascal_case (s : String) : String :=
  String.mk (pascalGo s.data true)

/-- Worker of `to_snakecase`, carrying the previous character. -/
def snakeGo : List Char → Option Char → List Char
  | [], _ => []
  | c :: rest, prev =>
    if c.isUpper && (prev.elim false fun p => p.isLower || p.isDigit) then
      '_' :: c.toLower :: snakeGo rest (some c)
    else
      c.toLower :: snakeGo rest (some c)

/-- Modelled from the spec: the external `snakecase` crate's `to_snakecase`
(a dependency, not part of this repository) — per the spec's
naming-normalization paragraph, "lower-casing and inserting separators at
case-transition boundaries": an upper-case letter following a lower-case
letter or a digit gets an underscore inserted before it, and every letter is
lower-cased. -/
def to_snakecase (s : String) : String :=
  String.mk (snakeGo s.data none)

/-- The worker loop of `inputs_output_from_args`: partition the arguments
into inputs (direction `in` or unspecified, translated with
`is_input = true, prefer_reference = true`) and outputs (direction `out`,
translated with `is_input = false, prefer_reference = false`), generating
`arg_<k>` placeholder names for unnamed inputs, `k` counting unnamed inputs
only. -/
def argsLoop : List Arg → List String → List String → Nat →
    Except DecodeErr (List String × List String)
  | [], inputs, outputs, _ => .ok (inputs, outputs)
  | a :: rest, inputs, outputs, n =>
    match a.direction with
    | none | some ArgDirection.In =>
      match to_rust_type_e a.ty true true with
      | .error e => .error e
      | .ok (ty, _) =>
        match a.name with
        | some nm =>
          argsLoop rest (inputs ++ [to_identifier nm ++ ": " ++ ty]) outputs n
        | none =>
          argsLoop rest (inputs ++ ["arg_" ++ toString (n + 1) ++ ": " ++ ty])
            outputs (n + 1)
    | some ArgDirection.Out =>
      match to_rust_type_e a.ty false false with
      | .error e => .error e
      | .ok (ty, _) => argsLoop rest inputs (outputs ++ [ty]) n

/-- `inputs_output_from_args` from gen.rs: the parameter list (starting at
`&self`) and the ` -> zbus::Result<...>` return text, with zero outputs
becoming `()`, one output used bare, several wrapped in a tuple. -/
def inputs_output_from_args (args : List Arg) :
    Except DecodeErr (String × String) :=
  match argsLoop args ["&self"] [] 0 with
  | .error e => .error e
  | .ok (inputs, outputs) =>
    .ok (joinComma inputs,
      " -> zbus::Result<" ++
        (match outputs with
         | [] => "()"
         | [single] => single
         | many => "(" ++ joinComma many ++ ")") ++ ">")

/-- The worker loop of `parse_signal_args`: every argument becomes an input
parameter translated with `is_input = true, prefer_reference = false`. -/
def signalArgsLoop : List Arg → List String → Nat → Except DecodeErr (List String)
  | [], inputs, _ => .ok inputs
  | a :: rest, inputs, n =>
    match to_rust_type_e a.ty true false with
    | .error e => .error e
    | .ok (ty, _) =>
      match a.name with
      | some nm => signalArgsLoop rest (inputs ++ [to_identifier nm ++ ": " ++ ty]) n
      | none =>
        signalArgsLoop rest (inputs ++ ["arg_" ++ toString (n + 1) ++ ": " ++ ty])
          (n + 1)

/-- `parse_signal_args` from gen.rs. -/
def parse_signal_args (args : List Arg) : Except DecodeErr String :=
  match signalArgsLoop args ["&self"] 0 with
  | .error e => .error e
  | .ok inputs => .ok (joinComma inputs)

/-- The lines `GenTrait::fmt` writes for one method: a blank line, the doc
line, the original-name override exactly when `pascal_case` of the
normalized identifier does not round-trip to the wire name, and the
declaration. -/
def methodLines (m : Method) : Except DecodeErr (List String) :=
  match inputs_output_from_args m.args with
  | .error e => .error e
  | .ok (inputs, output) =>
    let name := to_identifier (to_snakecase m.name)
    .ok (["", "    /// " ++ m.name ++ " method"] ++
      (if pascal_case name ≠ m.name
       then ["    #[dbus_proxy(name = \x22" ++ m.name ++ "\x22)]"] else []) ++
      ["    fn " ++ name ++ "(" ++ inputs ++ ")" ++ output ++ ";"])

/-- The lines `GenTrait::fmt` writes for one signal. -/
def signalLines (sg : Signal) : Except DecodeErr (List String) :=
  match parse_signal_args sg.args with
  | .error e => .error e
  | .ok args =>
    let name := to_identifier (to_snakecase sg.name)
    .ok (["", "    /// " ++ sg.name ++ " signal"] ++
      [if pascal_case name ≠ sg.name
       then "    #[dbus_proxy(signal, name = \x22" ++ sg.name ++ "\x22)]"
       else "    #[dbus_proxy(signal)]"] ++
      ["    fn " ++ name ++ "(" ++ args ++ ") -> zbus::Result<()>;"])

/-- The lines `GenTrait::fmt` writes for one property: the read accessor
(type translated at `is_input = false, prefer_reference = false`) when
readable, then the `set_`-prefixed mutator (type translated at
`is_input = true, prefer_reference = true`) when writable. -/
def propertyLines (p : Property) : Except DecodeErr (List String) :=
  let name := to_identifier (to_snakecase p.name)
  match (if p.read then
           match to_rust_type_e p.ty false false with
           | .error e => .error e
           | .ok (o, _) =>
             .ok ["    fn " ++ name ++ "(&self) -> zbus::Result<" ++ o ++ ">;"]
         else .ok [] : Except DecodeErr (List String)) with
  | .error e => .error e
  | .ok readLines =>
    match (if p.write then
             match to_rust_type_e p.ty true true with
             | .error e => .error e
             | .ok (i, _) =>
               .ok ["    fn set_" ++ name ++ "(&self, value: " ++ i ++
                 ") -> zbus::Result<()>;"]
           else .ok [] : Except DecodeErr (List String)) with
    | .error e => .error e
    | .ok writeLines =>
      .ok ((["", "    /// " ++ p.name ++ " property"] ++
        [if pascal_case name ≠ p.name
         then "    #[dbus_proxy(property, name = \x22" ++ p.name ++ "\x22)]"
         else "    #[dbus_proxy(property)]"]) ++ readLines ++ writeLines)

/-- `Vec::sort_by` with a boolean comparator: ordered insertion … -/
def insertLe {α : Type} (le : α → α → Bool) (a : α) : List α → List α
  | [] => [a]
  | b :: l => if le a b then a :: b :: l else b :: insertLe le a l

/-- … and insertion sort.  The source sorts with `slice::sort_by` (a stable
merge sort); under the emitter's unique-wire-name assumption every
comparison sort yields the same list, which `C7` makes precise. -/
def sort_by {α : Type} (le : α → α → Bool) : List α → List α
  | [] => []
  | a :: l => insertLe le a (sort_by le l)

/-- The comparator `a.name().partial_cmp(&b.name()).unwrap()` used for all
three member kinds (total lexicographic order on the wire names). -/
def methodLe (a b : Method) : Bool := decide (a.name ≤ b.name)

def signalLe (a b : Signal) : Bool := decide (a.name ≤ b.name)

def propertyLe (a b : Property) : Bool := decide (a.name ≤ b.name)

/-- The substring of the interface name after its last '.' (`rfind` plus
slicing); `none` when no '.' exists (the source unwraps and panics). -/
def after_last_dot (s : String) : Option String :=
  if s.data.contains '.' then
    some (String.mk ((s.data.reverse.takeWhile (fun c => c ≠ '.')).reverse))
  else none

/-- `GenTrait::fmt`: the complete emitted text, every written line followed
by a newline (`none` = panic: dot-less interface name or malformed
signature). -/
def GenTrait_fmt (iface : Interface) : Option String :=
  match after_last_dot iface.name with
  | none => none
  | some localName =>
    match (sort_by methodLe iface.methods).mapM
        (fun m => (methodLines m).toOption) with
    | none => none
    | some mls =>
      match (sort_by signalLe iface.signals).mapM
          (fun sg => (signalLines sg).toOption) with
      | none => none
      | some sls =>
        match (sort_by propertyLe iface.properties).mapM
            (fun p => (propertyLines p).toOption) with
        | none => none
        | some pls =>
          some (String.join
            (((["#[dbus_proxy(interface = \x22" ++ iface.name ++ "\x22)]",
                "trait " ++ localName ++ " \x7b"] ++
               mls.flatten ++ sls.flatten ++ pls.flatten) ++ ["\x7d"]).map
              (fun l => l ++ "\n")))

theorem insertLe_perm {α : Type} (le : α → α → Bool) (a : α) (l : List α) :
    (insertLe le a l).Perm (a :: l) := by
  induction l with
  | nil => exact List.Perm.refl _
  | cons b l ih =>
    by_cases h : le a b
    · rw [insertLe, if_pos h]
    · rw [insertLe, if_neg h]
      exact (ih.cons b).trans (List.Perm.swap a b l)

theorem sort_by_perm {α : Type} (le : α → α → Bool) (l : List α) :
    (sort_by le l).Perm l := by
  induction l with
  | nil => exact List.Perm.refl _
  | cons a l ih => exact (insertLe_perm le a (sort_by le l)).trans (ih.cons a)

theorem insertLe_sorted {α : Type} (le : α → α → Bool)
    (htrans : ∀ x y z, le x y = true → le y z = true → le x z = true)
    (htot : ∀ x y, le x y = true ∨ le y x = true) (a : α) (l : List α)
    (hl : l.Pairwise (fun x y => le x y = true)) :
    (insertLe le a l).Pairwise (fun x y => le x y = true) := by
  induction l with
  | nil => simp [insertLe]
  | cons b l ih =>
    rw [List.pairwise_cons] at hl
    obtain ⟨hb, hl'⟩ := hl
    by_cases h : le a b
    · rw [insertLe, if_pos h]
      rw [List.pairwise_cons]
      refine ⟨?_, List.pairwise_cons.mpr ⟨hb, hl'⟩⟩
      intro y hy
      rcases List.mem_cons.mp hy with rfl | hy'
      · exact h
      · exact htrans a b y h (hb y hy')
    · rw [insertLe, if_neg h]
      rw [List.pairwise_cons]
      refine ⟨?_, ih hl'⟩
      intro y hy
      have hy' := (insertLe_perm le a l).mem_iff.mp hy
      rcases List.mem_cons.mp hy' with rfl | hy''
      · rcases htot y b with hyb | hby
        · exact absurd hyb h
        · exact hby
      · exact hb y hy''

theorem sort_by_sorted {α : Type} (le : α → α → Bool)
    (htrans : ∀ x y z, le x y = true → le y z = true → le x z = true)
    (htot : ∀ x y, le x y = true ∨ le y x = true) (l : List α) :
    (sort_by le l).Pairwise (fun x y => le x y = true) := by
  induction l with
  | nil => simp [sort_by]
  | cons a l ih => exact insertLe_sorted le htrans htot a (sort_by le l) ih

/-- Two permutations of the same member list with pairwise-distinct wire
names sort identically: sorting by a duplicate-free key is
permutation-invariant. -/
theorem sort_by_key_eq {α : Type} (key : α → String) (l1 l2 : List α)
    (hperm : l1.Perm l2) (hnodup : (l1.map key).Nodup) :
    sort_by (fun a b => decide (key a ≤ key b)) l1 =
    sort_by (fun a b => decide (key a ≤ key b)) l2 := by
  have htrans : ∀ x y z : α, decide (key x ≤ key y) = true →
      decide (key y ≤ key z) = true → decide (key x ≤ key z) = true := by
    intro x y z hxy hyz
    simp only [decide_eq_true_eq] at *
    exact le_trans hxy hyz
  have htot : ∀ x y : α, decide (key x ≤ key y) = true ∨
      decide (key y ≤ key x) = true := by
    intro x y
    simp only [decide_eq_true_eq]
    exact le_total _ _
  have hs1 := sort_by_sorted _ htrans htot l1
  have hs2 := sort_by_sorted _ htrans htot l2
  have hperm12 : (sort_by (fun a b => decide (key a ≤ key b)) l1).Perm
      (sort_by (fun a b => decide (key a ≤ key b)) l2) :=
    (sort_by_perm _ l1).trans (hperm.trans (sort_by_perm _ l2).symm)
  have hnd1 : ((sort_by (fun a b => decide (key a ≤ key b)) l1).map key).Nodup :=
    ((sort_by_perm _ l1).map key).nodup_iff.mpr hnodup
  have hnd2 : ((sort_by (fun a b => decide (key a ≤ key b)) l2).map key).Nodup :=
    ((sort_by_perm _ l2).map key).nodup_iff.mpr
      ((hperm.map key).nodup_iff.mp hnodup)
  have hne1 := List.pairwise_map.mp hnd1
  have hne2 := List.pairwise_map.mp hnd2
  have hslt1 := (hs1.and hne1).imp
    (fun hab => lt_of_le_of_ne (by simpa using hab.1) hab.2)
  have hslt2 := (hs2.and hne2).imp
    (fun hab => lt_of_le_of_ne (by simpa using hab.1) hab.2)
  haveI : IsAntisymm α (fun a b => key a < key b) :=
    ⟨fun a b h1 h2 => absurd (h1.trans h2) (lt_irrefl _)⟩
  exact List.eq_of_perm_of_sorted hperm12 hslt1 hslt2

/-- C7: members of each kind are emitted in ascending, case-sensitive,
lexicographic order of their wire names, so two interfaces whose member
lists are permutations of one another (with unique wire names per kind)
emit byte-identical text. -/
theorem C7_sorted_emission (i1 i2 : Interface)
    (hname : i1.name = i2.name)
    (hm : i1.methods.Perm i2.methods)
    (hs : i1.signals.Perm i2.signals)
    (hp : i1.properties.Perm i2.properties)
    (hmn : (i1.methods.map Method.name).Nodup)
    (hsn : (i1.signals.map Signal.name).Nodup)
    (hpn : (i1.properties.map Property.name).Nodup) :
    GenTrait_fmt i1 = GenTrait_fmt i2 ∧
    ((sort_by methodLe i1.methods).map Method.name).Pairwise (· ≤ ·) ∧
    ((sort_by signalLe i1.signals).map Signal.name).Pairwise (· ≤ ·) ∧
    ((sort_by propertyLe i1.properties).map Property.name).Pairwise (· ≤ ·) := by
  have htransS : ∀ x y z : String, decide (x ≤ y) = true →
      decide (y ≤ z) = true → decide (x ≤ z) = true := by
    intro x y z hxy hyz
    simp only [decide_eq_true_eq] at *
    exact le_trans hxy hyz
  refine ⟨?_, ?_, ?_, ?_⟩
  · have e1 : sort_by methodLe i1.methods = sort_by methodLe i2.methods :=
      sort_by_key_eq Method.name i1.methods i2.methods hm hmn
    have e2 : sort_by signalLe i1.signals = sort_by signalLe i2.signals :=
      sort_by_key_eq Signal.name i1.signals i2.signals hs hsn
    have e3 : sort_by propertyLe i1.properties = sort_by propertyLe i2.properties :=
      sort_by_key_eq Property.name i1.properties i2.properties hp hpn
    unfold GenTrait_fmt
    rw [hname, e1, e2, e3]
  · have := sort_by_sorted methodLe
      (fun x y z => htransS x.name y.name z.name)
      (fun x y => by simpa [methodLe] using le_total x.name y.name) i1.methods
    rw [List.pairwise_map]
    exact this.imp (fun hab => by simpa [methodLe] using hab)
  · have := sort_by_sorted signalLe
      (fun x y z => htransS x.name y.name z.name)
      (fun x y => by simpa [signalLe] using le_total x.name y.name) i1.signals
    rw [List.pairwise_map]
    exact this.imp (fun hab => by simpa [signalLe] using hab)
  · have := sort_by_sorted propertyLe
      (fun x y z => htransS x.name y.name z.name)
      (fun x y => by simpa [propertyLe] using le_total x.name y.name) i1.properties
    rw [List.pairwise_map]
    exact this.imp (fun hab => by simpa [propertyLe] using hab)

/-- Witness for C7: swapping two methods, two signals and two properties
leaves the emitted text unchanged. -/
theorem C7_sorted_emission_witness :
    GenTrait_fmt ⟨"com.example.T", [⟨"B", []⟩, ⟨"A", []⟩],
        [⟨"S2", []⟩, ⟨"S1", []⟩], [⟨"Q", "y", true, false⟩, ⟨"P", "y", true, false⟩]⟩ =
      GenTrait_fmt ⟨"com.example.T", [⟨"A", []⟩, ⟨"B", []⟩],
        [⟨"S1", []⟩, ⟨"S2", []⟩], [⟨"P", "y", true, false⟩, ⟨"Q", "y", true, false⟩]⟩ ∧
    ((sort_by methodLe [⟨"B", []⟩, ⟨"A", []⟩]).map Method.name).Pairwise (· ≤ ·) ∧
    ((sort_by signalLe [⟨"S2", []⟩, ⟨"S1", []⟩]).map Signal.name).Pairwise (· ≤ ·) ∧
    ((sort_by propertyLe [⟨"Q", "y", true, false⟩, ⟨"P", "y", true, false⟩]).map
      Property.name).Pairwise (· ≤ ·) :=
  C7_sorted_emission
    ⟨"com.example.T", [⟨"B", []⟩, ⟨"A", []⟩], [⟨"S2", []⟩, ⟨"S1", []⟩],
      [⟨"Q", "y", true, false⟩, ⟨"P", "y", true, false⟩]⟩
    ⟨"com.example.T", [⟨"A", []⟩, ⟨"B", []⟩], [⟨"S1", []⟩, ⟨"S2", []⟩],
      [⟨"P", "y", true, false⟩, ⟨"Q", "y", true, false⟩]⟩
    rfl (by decide) (by decide) (by decide) (by decide) (by decide) (by decide)

/-- C8: for each member kind the original-name override is emitted exactly
when `pascal_case` of the normalized identifier differs from the wire name
(for methods the line list grows from 3 to 4 lines, with the override at
index 2; signals and properties always carry an attribute line at index 2
whose form switches); and the reserved wire name "Move" normalizes to
"move_" (keyword plus disambiguating suffix), round-trips to "Move" under
`pascal_case`, and therefore needs no override. -/
theorem C8_name_override :
    (∀ (m : Method) (ls : List String), methodLines m = .ok ls →
      ((pascal_case (to_identifier (to_snakecase m.name)) = m.name →
        ls.length = 3) ∧
       (pascal_case (to_identifier (to_snakecase m.name)) ≠ m.name →
        ls.length = 4 ∧
        ls[2]? = some ("    #[dbus_proxy(name = \x22" ++ m.name ++ "\x22)]")))) ∧
    (∀ (sg : Signal) (ls : List String), signalLines sg = .ok ls →
      ls[2]? = some
        (if pascal_case (to_identifier (to_snakecase sg.name)) ≠ sg.name
         then "    #[dbus_proxy(signal, name = \x22" ++ sg.name ++ "\x22)]"
         else "    #[dbus_proxy(signal)]")) ∧
    (∀ (p : Property) (ls : List String), propertyLines p = .ok ls →
      ls[2]? = some
        (if pascal_case (to_identifier (to_snakecase p.name)) ≠ p.name
         then "    #[dbus_proxy(property, name = \x22" ++ p.name ++ "\x22)]"
         else "    #[dbus_proxy(property)]")) ∧
    to_identifier (to_snakecase "Move") = "move_" ∧
    pascal_case "move_" = "Move" ∧
    (∀ ls : List String, methodLines ⟨"Move", []⟩ = .ok ls → ls.length = 3) := by
  refine ⟨?_, ?_, ?_, rfl, rfl, ?_⟩
  · intro m ls h
    cases hE : inputs_output_from_args m.args with
    | error e =>
      unfold methodLines at h
      rw [hE] at h
      simp at h
    | ok io =>
      obtain ⟨i, o⟩ := io
      unfold methodLines at h
      rw [hE] at h
      dsimp only at h
      by_cases hc : pascal_case (to_identifier (to_snakecase m.name)) ≠ m.name
      · rw [if_pos hc] at h
        injection h with h2
        subst h2
        exact ⟨fun hceq => absurd hceq hc, fun _ => ⟨by simp, by simp⟩⟩
      · rw [if_neg hc] at h
        injection h with h2
        subst h2
        exact ⟨fun _ => by simp, fun hne => absurd hne hc⟩
  · intro sg ls h
    cases hE : parse_signal_args sg.args with
    | error e =>
      unfold signalLines at h
      rw [hE] at h
      simp at h
    | ok args =>
      unfold signalLines at h
      rw [hE] at h
      dsimp only at h
      injection h with h2
      subst h2
      simp
  · intro p ls h
    unfold propertyLines at h
    dsimp only at h
    cases hR : (if p.read then
        match to_rust_type_e p.ty false false with
        | .error e => .error e
        | .ok (o, _) =>
          .ok ["    fn " ++ to_identifier (to_snakecase p.name) ++
            "(&self) -> zbus::Result<" ++ o ++ ">;"]
      else .ok [] : Except DecodeErr (List String)) with
    | error e =>
      rw [hR] at h
      simp at h
    | ok readLines =>
      rw [hR] at h
      dsimp only at h
      cases hW : (if p.write then
          match to_rust_type_e p.ty true true with
          | .error e => .error e
          | .ok (i, _) =>
            .ok ["    fn set_" ++ to_identifier (to_snakecase p.name) ++
              "(&self, value: " ++ i ++ ") -> zbus::Result<()>;"]
        else .ok [] : Except DecodeErr (List String)) with
      | error e =>
        rw [hW] at h
        simp at h
      | ok writeLines =>
        rw [hW] at h
        dsimp only at h
        injection h with h2
        subst h2
        rw [List.getElem?_append_left (by simp), List.getElem?_append_left (by simp)]
        simp
  · intro ls h
    have hmv : methodLines ⟨"Move", []⟩ =
        .ok ["", "    /// Move method",
          "    fn move_(&self) -> zbus::Result<()>;"] := rfl
    rw [hmv] at h
    injection h with h2
    subst h2
    rfl

/-- Witness for C8 at the method "Frobate" (conventional name: no override
line, 3 lines emitted). -/
theorem C8_name_override_witness :
    (["", "    /// Frobate method",
      "    fn frobate(&self) -> zbus::Result<()>;"] : List String).length = 3 :=
  (C8_name_override.1 ⟨"Frobate", []⟩ _ rfl).1 rfl

theorem joinComma_self_prefix (suf : List String) :
    ∃ rest, joinComma ("&self" :: suf) = "&self" ++ rest := by
  cases suf with
  | nil => exact ⟨"", by simp [joinComma]⟩
  | cons x xs =>
    exact ⟨", " ++ joinComma (x :: xs),
      String.append_assoc "&self" ", " (joinComma (x :: xs))⟩

theorem argsLoop_prefix (args : List Arg) (acc outp : List String) (n : Nat)
    (res : List String × List String) (h : argsLoop args acc outp n = .ok res) :
    ∃ suf, res.1 = acc ++ suf := by
  induction args generalizing acc outp n with
  | nil =>
    unfold argsLoop at h
    injection h with h2
    subst h2
    exact ⟨[], by simp⟩
  | cons a rest ih =>
    unfold argsLoop at h
    split at h
    · cases hE : to_rust_type_e a.ty true true with
      | error e =>
        rw [hE] at h
        simp at h
      | ok ty =>
        obtain ⟨ty, rem⟩ := ty
        rw [hE] at h
        dsimp only at h
        cases hn : a.name with
        | some nm =>
          rw [hn] at h
          dsimp only at h
          obtain ⟨suf, hsuf⟩ := ih _ _ _ h
          exact ⟨[to_identifier nm ++ ": " ++ ty] ++ suf,
            by rw [hsuf, List.append_assoc]⟩
        | none =>
          rw [hn] at h
          dsimp only at h
          obtain ⟨suf, hsuf⟩ := ih _ _ _ h
          exact ⟨["arg_" ++ toString (n + 1) ++ ": " ++ ty] ++ suf,
            by rw [hsuf, List.append_assoc]⟩
    · cases hE : to_rust_type_e a.ty true true with
      | error e =>
        rw [hE] at h
        simp at h
      | ok ty =>
        obtain ⟨ty, rem⟩ := ty
        rw [hE] at h
        dsimp only at h
        cases hn : a.name with
        | some nm =>
          rw [hn] at h
          dsimp only at h
          obtain ⟨suf, hsuf⟩ := ih _ _ _ h
          exact ⟨[to_identifier nm ++ ": " ++ ty] ++ suf,
            by rw [hsuf, List.append_assoc]⟩
        | none =>
          rw [hn] at h
          dsimp only at h
          obtain ⟨suf, hsuf⟩ := ih _ _ _ h
          exact ⟨["arg_" ++ toString (n + 1) ++ ": " ++ ty] ++ suf,
            by rw [hsuf, List.append_assoc]⟩
    · cases hE : to_rust_type_e a.ty false false with
      | error e =>
        rw [hE] at h
        simp at h
      | ok ty =>
        obtain ⟨ty, rem⟩ := ty
        rw [hE] at h
        dsimp only at h
        exact ih _ _ _ h

theorem signalArgsLoop_prefix (args : List Arg) (acc : List String) (n : Nat)
    (res : List String) (h : signalArgsLoop args acc n = .ok res) :
    ∃ suf, res = acc ++ suf := by
  induction args generalizing acc n with
  | nil =>
    unfold signalArgsLoop at h
    injection h with h2
    subst h2
    exact ⟨[], by simp⟩
  | cons a rest ih =>
    unfold signalArgsLoop at h
    cases hE : to_rust_type_e a.ty true false with
    | error e =>
      rw [hE] at h
      simp at h
    | ok ty =>
      obtain ⟨ty, rem⟩ := ty
      rw [hE] at h
      dsimp only at h
      cases hn : a.name with
      | some nm =>
        rw [hn] at h
        dsimp only at h
        obtain ⟨suf, hsuf⟩ := ih _ _ h
        exact ⟨[to_identifier nm ++ ": " ++ ty] ++ suf,
          by rw [hsuf, List.append_assoc]⟩
      | none =>
        rw [hn] at h
        dsimp only at h
        obtain ⟨suf, hsuf⟩ := ih _ _ h
        exact ⟨["arg_" ++ toString (n + 1) ++ ": " ++ ty] ++ suf,
          by rw [hsuf, List.append_assoc]⟩

/-- C9: every emitted member declaration takes `&self` first and wraps its
result in `zbus::Result<...>`: the method parameter list starts at `&self`
and the method return text is ` -> zbus::Result<...>`; signal parameter
lists start at `&self` and signal declarations return `zbus::Result<()>`;
property read accessors return `zbus::Result<type>` on `&self`, property
write mutators return `zbus::Result<()>` on `&self`. -/
theorem C9_self_and_result :
    (∀ (args : List Arg) (io : String × String),
      inputs_output_from_args args = .ok io →
      (∃ rest, io.1 = "&self" ++ rest) ∧
      (∃ core, io.2 = " -> zbus::Result<" ++ core ++ ">")) ∧
    (∀ (args : List Arg) (s : String), parse_signal_args args = .ok s →
      ∃ rest, s = "&self" ++ rest) ∧
    (∀ (sg : Signal) (ls : List String), signalLines sg = .ok ls →
      ∃ nm args, ("    fn " ++ nm ++ "(" ++ args ++ ") -> zbus::Result<()>;") ∈ ls ∧
        ∃ rest, args = "&self" ++ rest) ∧
    (∀ (p : Property) (ls : List String), propertyLines p = .ok ls →
      (p.read = true →
        ∃ nm o, ("    fn " ++ nm ++ "(&self) -> zbus::Result<" ++ o ++ ">;") ∈ ls) ∧
      (p.write = true →
        ∃ nm i, ("    fn set_" ++ nm ++ "(&self, value: " ++ i ++
          ") -> zbus::Result<()>;") ∈ ls)) := by
  have hio : ∀ (args : List Arg) (io : String × String),
      inputs_output_from_args args = .ok io →
      (∃ rest, io.1 = "&self" ++ rest) ∧
      (∃ core, io.2 = " -> zbus::Result<" ++ core ++ ">") := by
    intro args io h
    unfold inputs_output_from_args at h
    cases hL : argsLoop args ["&self"] [] 0 with
    | error e =>
      rw [hL] at h
      simp at h
    | ok p =>
      obtain ⟨inputs, outputs⟩ := p
      rw [hL] at h
      dsimp only at h
      injection h with h2
      subst h2
      obtain ⟨suf, hsuf⟩ := argsLoop_prefix args ["&self"] [] 0 _ hL
      dsimp only at hsuf
      constructor
      · dsimp only
        rw [hsuf]
        exact joinComma_self_prefix suf
      · exact ⟨_, rfl⟩
  have hsig : ∀ (args : List Arg) (s : String), parse_signal_args args = .ok s →
      ∃ rest, s = "&self" ++ rest := by
    intro args s h
    unfold parse_signal_args at h
    cases hL : signalArgsLoop args ["&self"] 0 with
    | error e =>
      rw [hL] at h
      simp at h
    | ok inputs =>
      rw [hL] at h
      dsimp only at h
      injection h with h2
      subst h2
      obtain ⟨suf, hsuf⟩ := signalArgsLoop_prefix args ["&self"] 0 _ hL
      rw [hsuf]
      exact joinComma_self_prefix suf
  refine ⟨hio, hsig, ?_, ?_⟩
  · intro sg ls h
    cases hE : parse_signal_args sg.args with
    | error e =>
      unfold signalLines at h
      rw [hE] at h
      simp at h
    | ok args =>
      unfold signalLines at h
      rw [hE] at h
      dsimp only at h
      injection h with h2
      subst h2
      obtain ⟨rest, hrest⟩ := hsig sg.args args hE
      exact ⟨to_identifier (to_snakecase sg.name), args, by simp, rest, hrest⟩
  · intro p ls h
    unfold propertyLines at h
    dsimp only at h
    cases hR : (if p.read then
        match to_rust_type_e p.ty false false with
        | .error e => .error e
        | .ok (o, _) =>
          .ok ["    fn " ++ to_identifier (to_snakecase p.name) ++
            "(&self) -> zbus::Result<" ++ o ++ ">;"]
      else .ok [] : Except DecodeErr (List String)) with
    | error e =>
      rw [hR] at h
      simp at h
    | ok readLines =>
      rw [hR] at h
      dsimp only at h
      cases hW : (if p.write then
          match to_rust_type_e p.ty true true with
          | .error e => .error e
          | .ok (i, _) =>
            .ok ["    fn set_" ++ to_identifier (to_snakecase p.name) ++
              "(&self, value: " ++ i ++ ") -> zbus::Result<()>;"]
        else .ok [] : Except DecodeErr (List String)) with
      | error e =>
        rw [hW] at h
        simp at h
      | ok writeLines =>
        rw [hW] at h
        dsimp only at h
        injection h with h2
        subst h2
        constructor
        · intro hread
          rw [if_pos hread] at hR
          cases hT : to_rust_type_e p.ty false false with
          | error e =>
            rw [hT] at hR
            simp at hR
          | ok t =>
            obtain ⟨o, rem⟩ := t
            rw [hT] at hR
            dsimp only at hR
            injection hR with hR2
            subst hR2
            exact ⟨to_identifier (to_snakecase p.name), o, by simp⟩
        · intro hwrite
          rw [if_pos hwrite] at hW
          cases hT : to_rust_type_e p.ty true true with
          | error e =>
            rw [hT] at hW
            simp at hW
          | ok t =>
            obtain ⟨i, rem⟩ := t
            rw [hT] at hW
            dsimp only at hW
            injection hW with hW2
            subst hW2
            exact ⟨to_identifier (to_snakecase p.name), i, by simp⟩

/-- Witness for C9 at a no-argument method, the signal "Changed" and the
read-write property "Bar" of the repository's own test interface. -/
theorem C9_self_and_result_witness :
    ((∃ rest, ("&self" : String) = "&self" ++ rest) ∧
     (∃ core, (" -> zbus::Result<()>" : String) = " -> zbus::Result<" ++ core ++ ">")) ∧
    (∃ rest, ("&self, new_value: bool" : String) = "&self" ++ rest) ∧
    (∃ nm args, ("    fn " ++ nm ++ "(" ++ args ++ ") -> zbus::Result<()>;") ∈
        (["", "    /// Changed signal", "    #[dbus_proxy(signal)]",
          "    fn changed(&self, new_value: bool) -> zbus::Result<()>;"] : List String) ∧
      ∃ rest, args = "&self" ++ rest) ∧
    ((true = true →
      ∃ nm o, ("    fn " ++ nm ++ "(&self) -> zbus::Result<" ++ o ++ ">;") ∈
        (["", "    /// Bar property", "    #[dbus_proxy(property)]",
          "    fn bar(&self) -> zbus::Result<u8>;",
          "    fn set_bar(&self, value: u8) -> zbus::Result<()>;"] : List String)) ∧
     (true = true →
      ∃ nm i, ("    fn set_" ++ nm ++ "(&self, value: " ++ i ++
        ") -> zbus::Result<()>;") ∈
        (["", "    /// Bar property", "    #[dbus_proxy(property)]",
          "    fn bar(&self) -> zbus::Result<u8>;",
          "    fn set_bar(&self, value: u8) -> zbus::Result<()>;"] : List String))) :=
  ⟨C9_self_and_result.1 [] ("&self", " -> zbus::Result<()>") rfl,
   C9_self_and_result.2.1 [⟨some "new_value", "b", none⟩] "&self, new_value: bool" rfl,
   C9_self_and_result.2.2.1 ⟨"Changed", [⟨some "new_value", "b", none⟩]⟩ _ rfl,
   C9_self_and_result.2.2.2 ⟨"Bar", "y", true, true⟩ _ rfl⟩
